import Mathlib

/-!
gdu-win: path shortening, Windows drive enumeration, platform attributes and
the tree model.

A shallow embedding of `pkg/path/path.go`, `pkg/device/dev_windows.go` and
`pkg/analyze/dir_other.go`, and a model from the specification of the parts of
the program that have only their tests at hand: the aggregator, the report
codec, the ignore predicate and the path reconstruction.

Go strings are byte sequences and `len` counts bytes, so a Go string is a
`List UInt8`.  The platform separator `filepath.Separator` is one byte (`/` or
`\`); it is a parameter `sep` of the path functions.  A run-time panic (index or
slice bounds out of range) is the result `none`.
-/

namespace Gdu

/-- A Go `string`: a sequence of bytes. -/
abbrev GoString := List UInt8

/-- The bytes (UTF-8) of a string literal. -/
def str (s : String) : GoString := s.data.flatMap String.utf8EncodeChar

/-! ## pkg/path/path.go -/

/-- Go `strings.SplitAfter(s, sep)` for a one-byte separator: the substrings of
`s` after each occurrence of `sep`, every one but the last ending in `sep`; the
last is the (possibly empty) remainder. -/
def SplitAfter (sep : UInt8) : GoString → List GoString
  | [] => [[]]
  | c :: cs =>
    if c = sep then [c] :: SplitAfter sep cs
    else
      match SplitAfter sep cs with
      | [] => [[c]]
      | p :: ps => (c :: p) :: ps

/-- Go `strings.Split(s, sep)` for a one-byte separator: like `SplitAfter`, the
separators themselves dropped. -/
def Split (sep : UInt8) : GoString → List GoString
  | [] => [[]]
  | c :: cs =>
    if c = sep then [] :: Split sep cs
    else
      match Split sep cs with
      | [] => [[c]]
      | p :: ps => (c :: p) :: ps

/-- The truncation marker `"..."`. -/
def ellipsis : GoString := [46, 46, 46]

/-- The `for _, part := range parts[:len(parts)-1]` loop of `ShortenPath`, on
the state `(curLen, res)`; the `break` leaves the loop with the marker and the
separator appended. -/
def shortenLoop (sep : UInt8) (maxLen : Int) : List GoString → Int → GoString → GoString
  | [], _, res => res
  | part :: rest, curLen, res =>
    if curLen + (part.length : Int) > maxLen then res ++ (ellipsis ++ [sep])
    else shortenLoop sep maxLen rest (curLen + (part.length : Int)) (res ++ part)

/-- `ShortenPath(path, maxLen)` of `pkg/path/path.go`.  `parts[len(parts)-1]`
and `parts[:len(parts)-1]` panic on an empty `parts`: the result `none`. -/
def ShortenPath (sep : UInt8) (path : GoString) (maxLen : Int) : Option GoString :=
  if (path.length : Int) ≤ maxLen then some path
  else
    match (SplitAfter sep path).getLast? with
    | none => none
    | some last =>
      some (shortenLoop sep maxLen (SplitAfter sep path).dropLast (last.length : Int) [] ++ last)

/-- The last component of a path: what follows its last separator, the whole
path when it has none. -/
def lastComponent (sep : UInt8) (path : GoString) : GoString :=
  (path.reverse.takeWhile (fun c => decide (c ≠ sep))).reverse

/-! ## pkg/device/dev_windows.go -/

/-- A Windows error code, `syscall.Errno`. -/
abbrev Errno := Nat

/-- The error `syscall.EINVAL` of `windows.UTF16PtrFromString`. -/
def EINVAL : Errno := 536870951

/-- The drive type `windows.DRIVE_REMOVABLE`. -/
def DRIVE_REMOVABLE : Nat := 2

/-- The drive type `windows.DRIVE_FIXED`. -/
def DRIVE_FIXED : Nat := 3

/-- The drive type `windows.DRIVE_REMOTE`, a network drive. -/
def DRIVE_REMOTE : Nat := 4

/-- The drive type `windows.DRIVE_CDROM`. -/
def DRIVE_CDROM : Nat := 5

/-- The constant `windows.MAX_PATH`. -/
def MAX_PATH : Nat := 260

/-- Modelled from the spec: the `Device` record of `list_mounts`; its declaration
is not in dev_windows.go.  The fields are those `getDriveInfo` sets, `Size` and
`Free` being `int64`. -/
structure Device where
  Name : GoString
  MountPoint : GoString
  Fstype : GoString
  Size : Int
  Free : Int
  deriving DecidableEq

/-- The type `Devices`, a slice of `*Device`; the nil pointer is `none`. -/
abbrev Devices := List (Option Device)

/-- What `windows.GetVolumeInformation` answers: its error (`none` for nil) and
the UTF-16 code units it has written at the start of the two buffers. -/
structure VolumeInformation where
  err : Option Errno
  volumeName : List UInt16
  fsName : List UInt16

/-- The operating system as dev_windows.go sees it: the answers to its four
calls.  The three numbers of `GetDiskFreeSpaceEx` are `freeBytesAvailable`,
`totalBytes` and `totalFreeBytes`. -/
structure Windows where
  GetLogicalDrives : Except Errno Nat
  GetDriveType : GoString → Nat
  GetDiskFreeSpaceEx : GoString → Except Errno (Nat × Nat × Nat)
  GetVolumeInformation : GoString → VolumeInformation

/-- The conversion `int64(x)` of a `uint64`. -/
def toInt64 (x : Nat) : Int :=
  if x % 2 ^ 64 < 2 ^ 63 then ((x % 2 ^ 64 : Nat) : Int) else ((x % 2 ^ 64 : Nat) : Int) - 2 ^ 64

/-- A buffer `make([]uint16, MAX_PATH+1)` after the system has written `written`
at its start: zero-filled, and never longer than allocated. -/
def buffer (written : List UInt16) : List UInt16 :=
  (written ++ List.replicate (MAX_PATH + 1) 0).take (MAX_PATH + 1)

/-- The three bytes Go `decodeWTF16` appends for a surrogate that is alone: its
generalized UTF-8 (WTF-8) encoding `t3|byte(r>>12), tx|byte(r>>6)&maskx,
tx|byte(r)&maskx`. -/
def wtf8Surrogate (u : UInt16) : GoString :=
  [UInt8.ofNat (0xE0 + u.toNat / 4096), UInt8.ofNat (0x80 + u.toNat / 64 % 64),
    UInt8.ofNat (0x80 + u.toNat % 64)]

/-- Go `decodeWTF16` behind `windows.UTF16ToString`: a unit that is no surrogate
and a surrogate pair give the UTF-8 bytes of their code point, a surrogate that
is alone gives its three WTF-8 bytes. -/
def utf16Decode : List UInt16 → GoString
  | [] => []
  | [u] =>
    if 0xD800 ≤ u.toNat ∧ u.toNat < 0xE000 then wtf8Surrogate u
    else String.utf8EncodeChar (Char.ofNat u.toNat)
  | u :: v :: rest =>
    if 0xD800 ≤ u.toNat ∧ u.toNat < 0xDC00 ∧ 0xDC00 ≤ v.toNat ∧ v.toNat < 0xE000 then
      String.utf8EncodeChar
          (Char.ofNat (0x10000 + (u.toNat - 0xD800) * 0x400 + (v.toNat - 0xDC00)))
        ++ utf16Decode rest
    else if 0xD800 ≤ u.toNat ∧ u.toNat < 0xE000 then
      wtf8Surrogate u ++ utf16Decode (v :: rest)
    else String.utf8EncodeChar (Char.ofNat u.toNat) ++ utf16Decode (v :: rest)

/-- The function `windows.UTF16ToString`: the bytes `decodeWTF16` gives for the
UTF-16 units before the first NUL. -/
def UTF16ToString (s : List UInt16) : GoString :=
  utf16Decode (s.takeWhile (fun u => decide (u ≠ 0)))

/-- The UTF-16 code units of a string literal. -/
def utf16 (s : String) : List UInt16 :=
  s.data.flatMap (fun c =>
    if c.toNat < 0x10000 then [UInt16.ofNat c.toNat]
    else [UInt16.ofNat (0xD800 + (c.toNat - 0x10000) / 0x400),
          UInt16.ofNat (0xDC00 + (c.toNat - 0x10000) % 0x400)])

/-- The drive string of bit `i`: `string(rune('A'+i)) + ":\\"`. -/
def driveString (i : Nat) : GoString :=
  String.utf8EncodeChar (Char.ofNat (65 + i)) ++ [58, 92]

/-- The function `getLogicalDrives`: the drive strings of the bits 0 to 25 set
in the `uint32` mask, or the error of `windows.GetLogicalDrives`. -/
def getLogicalDrives (os : Windows) : Except Errno (List GoString) :=
  match os.GetLogicalDrives with
  | .error e => .error e
  | .ok mask =>
    .ok ((List.range 26).foldl
      (fun drives i =>
        if (mask % 2 ^ 32) &&& (1 <<< i) ≠ 0 then drives ++ [driveString i] else drives) [])

/-- The function `getDriveInfo`.  The outer `none` is the panic of `drive[:2]`
on a string shorter than two bytes; `.error e` is `(nil, e)`, `.ok none` is
`(nil, nil)` and `.ok (some d)` is `(&d, nil)`. -/
def getDriveInfo (os : Windows) (drive : GoString) : Option (Except Errno (Option Device)) :=
  if (0 : UInt8) ∈ drive then some (.error EINVAL)
  else if os.GetDriveType drive ≠ DRIVE_FIXED ∧ os.GetDriveType drive ≠ DRIVE_REMOVABLE then
    some (.ok none)
  else
    match os.GetDiskFreeSpaceEx drive with
    | .error e => some (.error e)
    | .ok (_, totalBytes, totalFreeBytes) =>
      let info := os.GetVolumeInformation drive
      let volumeName := buffer info.volumeName
      let fsName := buffer info.fsName
      if drive.length < 2 then none
      else
        let name :=
          if info.err = none ∧ volumeName.headD 0 ≠ 0 then
            UTF16ToString volumeName ++ str " (" ++ drive.take 2 ++ str ")"
          else drive.take 2
        some (.ok (some {
          Name := name
          MountPoint := drive.take 2 ++ str "\\"
          Fstype := UTF16ToString fsName
          Size := toInt64 totalBytes
          Free := toInt64 totalFreeBytes }))

/-- The loop of `GetDevicesInfo` over the drives, on the slice `devices`: a
drive whose `getDriveInfo` gives an error is passed over, every other result
is appended. -/
def devicesLoop (os : Windows) : List GoString → Devices → Option Devices
  | [], devices => some devices
  | drive :: rest, devices =>
    match getDriveInfo os drive with
    | none => none
    | some (.error _) => devicesLoop os rest devices
    | some (.ok device) => devicesLoop os rest (devices ++ [device])

/-- The method `WindowsDevicesInfoGetter.GetDevicesInfo`; `.error e` is the
result `(nil, e)` and the outer `none` a panic. -/
def GetDevicesInfo (os : Windows) : Option (Except Errno Devices) :=
  match getLogicalDrives os with
  | .error e => some (.error e)
  | .ok drives =>
    match devicesLoop os drives [] with
    | none => none
    | some devices => some (.ok devices)

/-- The method `WindowsDevicesInfoGetter.GetMounts`. -/
def GetMounts (os : Windows) : Option (Except Errno Devices) :=
  GetDevicesInfo os

/-- A system with the drives C (fixed, label `System`, NTFS) and Z (network). -/
def systemCZ : Windows where
  GetLogicalDrives := .ok (2 ^ 2 + 2 ^ 25)
  GetDriveType := fun drive => if drive = str "C:\\" then DRIVE_FIXED else DRIVE_REMOTE
  GetDiskFreeSpaceEx := fun _ => .ok (300, 1000, 400)
  GetVolumeInformation := fun _ => ⟨none, utf16 "System", utf16 "NTFS"⟩

/-- A system with the one fixed drive C, whose volume information cannot be
read (error 5, access denied): the buffers stay as allocated. -/
def systemNoVolumeInfo : Windows where
  GetLogicalDrives := .ok (2 ^ 2)
  GetDriveType := fun _ => DRIVE_FIXED
  GetDiskFreeSpaceEx := fun _ => .ok (300, 1000, 400)
  GetVolumeInformation := fun _ => ⟨some 5, [], []⟩

/-- A system on which the enumeration of the logical drives fails with error 5. -/
def systemNoDrives : Windows where
  GetLogicalDrives := .error 5
  GetDriveType := fun _ => 0
  GetDiskFreeSpaceEx := fun _ => .error 5
  GetVolumeInformation := fun _ => ⟨some 5, [], []⟩

/-- The record of drive C on `systemCZ`. -/
def deviceC : Device :=
  ⟨str "System (C:)", str "C:\\", str "NTFS", 1000, 400⟩

/-- A prefix of `path` made of whole leading components, each with its trailing
separator: a prefix that is empty or ends in the separator. -/
def wholePrefix (sep : UInt8) (P path : GoString) : Prop :=
  P <+: path ∧ (P = [] ∨ P.getLast? = some sep)

/-- A system with the fixed drives C and D and the removable drive E, the disk
space of D being unreadable (error 21, device not ready). -/
def systemCDE : Windows where
  GetLogicalDrives := .ok (2 ^ 2 + 2 ^ 3 + 2 ^ 4)
  GetDriveType := fun drive => if drive = str "E:\\" then DRIVE_REMOVABLE else DRIVE_FIXED
  GetDiskFreeSpaceEx := fun drive =>
    if drive = str "D:\\" then .error 21 else .ok (300, 1000, 400)
  GetVolumeInformation := fun drive =>
    if drive = str "E:\\" then ⟨none, [], utf16 "FAT32"⟩ else ⟨none, utf16 "System", utf16 "NTFS"⟩

/-! ## pkg/analyze/dir_other.go -/

/-- Modelled from the spec: the File node of the tree model (§3), whose Go
declaration is not in dir_other.go: name, byte size, allocated-on-disk size,
modification time (epoch seconds), hardlink multiplicity and the device and
inode key of a hardlinkable file.  The parent back-reference is the place of
the node in the tree. -/
structure File where
  Name : GoString
  Size : Int
  allocatedBytes : Int
  Mtime : Int
  multiplicity : Nat
  key : Option (Nat × Nat)
  deriving DecidableEq

/-- Go `os.FileInfo`, the metadata record of a file: what its methods `Name`,
`Size`, `ModTime` (epoch seconds) and `IsDir` return. -/
structure FileInfo where
  Name : GoString
  Size : Int
  ModTime : Int
  IsDir : Bool
  deriving DecidableEq

/-- The function `setPlatformSpecificAttrs` of dir_other.go; the file after the
call. -/
def setPlatformSpecificAttrs (file : File) (f : FileInfo) : File :=
  { file with Mtime := f.ModTime }

/-- A file of 5 bytes as the analyzer creates it before the call of
`setPlatformSpecificAttrs`: name and byte size set, the rest zero. -/
def file5 : File := ⟨str "file", 5, 0, 0, 0, none⟩

/-- The metadata of `file5`. -/
def file5Info : FileInfo := ⟨str "file", 5, 1700000000, false⟩

/-! ## The tree model and the aggregator -/

/-- Modelled from the spec: the kinds of node without children (§3): file,
symlink and error node. -/
inductive LeafKind where
  | file
  | symlink
  | errorNode
  deriving DecidableEq

/-- Modelled from the spec: a node of the tree model (§3), whose Go declarations
are not under src.  A directory is, as in the tests (`Dir` with `File`,
`BasePath`, `Files`, `ItemCount`), the fields of a file, the base path (empty
when unset), the aggregated item count and the ordered child list. -/
inductive Item where
  | file (kind : LeafKind) (f : File)
  | dir (f : File) (BasePath : GoString) (ItemCount : Int) (Files : List Item)

/-- The aggregated item count of a node: the stored count of a directory, one
for any other node. -/
def Item.itemCount : Item → Int
  | .file _ _ => 1
  | .dir _ _ c _ => c

mutual
/-- Modelled from the spec: the Aggregator (§4.5, `UpdateStats`), a post-order
fold that populates the aggregated item count of every directory: one for the
directory plus the aggregated counts of its children (§3, invariant 3).  The
other aggregated fields are not modelled. -/
def UpdateStats : Item → Item
  | .file k f => .file k f
  | .dir f base _ files =>
    .dir f base (1 + ((UpdateStatsAll files).map Item.itemCount).sum) (UpdateStatsAll files)
/-- The fold of `UpdateStats` over a child list. -/
def UpdateStatsAll : List Item → List Item
  | [] => []
  | i :: rest => UpdateStats i :: UpdateStatsAll rest
end

mutual
/-- Every node of a tree, the root first. -/
def Item.nodes : Item → List Item
  | .file k f => [.file k f]
  | .dir f base c files => .dir f base c files :: Item.nodesAll files
/-- Every node of the trees of a list. -/
def Item.nodesAll : List Item → List Item
  | [] => []
  | i :: rest => Item.nodes i ++ Item.nodesAll rest
end

/-- A file node as the analyzer creates it. -/
def mkFile (name : String) (size : Int) : Item :=
  .file .file ⟨str name, size, 0, 0, 1, none⟩

/-- A directory node as the analyzer creates it, before aggregation. -/
def mkDir (name : String) (files : List Item) : Item :=
  .dir ⟨str name, 0, 0, 0, 1, none⟩ [] 0 files

/-- The test tree `test_dir` with `file` (5 bytes) and `nested/subnested/file2`
(2 bytes), the children in the order the directory is read. -/
def testDir : Item :=
  mkDir "test_dir" [mkFile "file" 5, mkDir "nested" [mkDir "subnested" [mkFile "file2" 2]]]

/-- The test tree with the children of the root in the other order, as the
parallel analyzer may leave them. -/
def testDirReordered : Item :=
  mkDir "test_dir" [mkDir "nested" [mkDir "subnested" [mkFile "file2" 2]], mkFile "file" 5]

/-! ## The report codec -/

/-- Modelled from the spec: a record of the report (§4.6), which describes one
node by its name, kind, size, modification time and, for a directory, the count
of its immediate children.  The name, the sizes, the time, the multiplicity and
the inode key are the `File` fields; `kind` is `none` for a directory; the base
path and the aggregated item count of a directory are kept as well. -/
structure Record where
  kind : Option LeafKind
  f : File
  BasePath : GoString
  ItemCount : Int
  children : Nat

/-- Modelled from the spec: the report (§4.6, §6), a version tag followed by the
sequence of records.  The textual encoding of a record is not modelled. -/
structure Report where
  version : Nat
  records : List Record

/-- Modelled from the spec: the errors of the report codec (§4.6). -/
inductive ReportError where
  | MalformedReport
  | TruncatedReport
  | VersionMismatch
  deriving DecidableEq

/-- The version tag the codec writes and accepts. -/
def reportVersion : Nat := 1

mutual
/-- Modelled from the spec: the records of a tree (§4.6), the record of a node
followed by the records of its children in their order. -/
def serialize : Item → List Record
  | .file k f => [⟨some k, f, [], 0, 0⟩]
  | .dir f base c files => ⟨none, f, base, c, files.length⟩ :: serializeAll files
/-- The records of the trees of a list. -/
def serializeAll : List Item → List Record
  | [] => []
  | i :: rest => serialize i ++ serializeAll rest
end

/-- Modelled from the spec: the export of a tree as a report (§4.6). -/
def WriteAnalysis (t : Item) : Report :=
  ⟨reportVersion, serialize t⟩

/-- Modelled from the spec: the parser of the records (§4.6): `parseItems fuel n`
reads `n` subtrees, the child count of a directory record telling where its
subtree closes, and returns them with the records left.  One unit of fuel is
used by record; a stream that ends inside a subtree is a `TruncatedReport`. -/
def parseItems : Nat → Nat → List Record → Except ReportError (List Item × List Record)
  | _, 0, recs => .ok ([], recs)
  | 0, _ + 1, _ => .error .TruncatedReport
  | _ + 1, _ + 1, [] => .error .TruncatedReport
  | fuel + 1, n + 1, r :: rest =>
    match r.kind with
    | some k =>
      match parseItems fuel n rest with
      | .error e => .error e
      | .ok (siblings, rest2) => .ok (.file k r.f :: siblings, rest2)
    | none =>
      match parseItems fuel r.children rest with
      | .error e => .error e
      | .ok (files, rest2) =>
        match parseItems fuel n rest2 with
        | .error e => .error e
        | .ok (siblings, rest3) => .ok (.dir r.f r.BasePath r.ItemCount files :: siblings, rest3)

/-- Modelled from the spec: the import of a report (§4.6, `ReadAnalysis`): the
version tag is checked, one tree is read and no record may be left. -/
def ReadAnalysis (report : Report) : Except ReportError Item :=
  if report.version ≠ reportVersion then .error .VersionMismatch
  else
    match parseItems (report.records.length + 1) 1 report.records with
    | .error e => .error e
    | .ok ([t], []) => .ok t
    | .ok _ => .error .MalformedReport

/-! ## The ignore predicate -/

/-- Modelled from the spec: the Directory node of the tree model (§3), whose Go
declaration is not in dir_other.go; as in the tests, `Dir` is the fields of a
file (`dir.Mtime` is `dir.File.Mtime`), the base path, the aggregated item
count and the child list. -/
structure Dir where
  File : File
  BasePath : GoString
  ItemCount : Int
  Files : List Item

/-- The function `setDirPlatformSpecificAttrs` of dir_other.go; the directory
after the call.  `osStat` is the answer of `os.Stat` for a path, an error or
the metadata record.  The function returns nothing, so no error leaves it. -/
def setDirPlatformSpecificAttrs (osStat : GoString → Except Errno FileInfo) (dir : Dir)
    (path : GoString) : Dir :=
  match osStat path with
  | .error _ => dir
  | .ok stat => { dir with File := { dir.File with Mtime := stat.ModTime } }

/-- The directory node `nested` of the test tree, with its child. -/
def dirNested : Dir :=
  ⟨⟨str "nested", 4096, 4096, 0, 1, none⟩, [], 3, [mkDir "subnested" [mkFile "file2" 2]]⟩

/-- A file system on which only `test_dir\nested` can be read. -/
def statNested (path : GoString) : Except Errno FileInfo :=
  if path = str "test_dir\\nested" then .ok ⟨str "nested", 4096, 1700000000, true⟩
  else .error 2

/-! ## Lemmas on splitting -/

/-- Shape of `SplitAfter`: some parts that each end in their only separator,
then a last part without separator; together they spell the input. -/
theorem SplitAfter_shape (sep : UInt8) (s : GoString) :
    ∃ init last, SplitAfter sep s = init ++ [last] ∧ sep ∉ last ∧
      s = init.flatten ++ last ∧ ∀ p ∈ init, ∃ q, p = q ++ [sep] ∧ sep ∉ q := by
  induction s with
  | nil => exact ⟨[], [], rfl, by simp, rfl, by simp⟩
  | cons c cs ih =>
    obtain ⟨init, last, h1, h2, h3, h4⟩ := ih
    by_cases hc : c = sep
    · refine ⟨[c] :: init, last, ?_, h2, ?_, ?_⟩
      · simp [SplitAfter, hc, h1]
      · simp [← h3]
      · intro p hp
        rcases List.mem_cons.mp hp with rfl | hp
        · exact ⟨[], by simp [hc], by simp⟩
        · exact h4 p hp
    · cases init with
      | nil =>
        refine ⟨[], c :: last, ?_, ?_, ?_, by simp⟩
        · simp [SplitAfter, hc, h1]
        · intro hmem
          rcases List.mem_cons.mp hmem with h | h
          · exact hc h.symm
          · exact h2 h
        · simpa using h3
      | cons p ps =>
        refine ⟨(c :: p) :: ps, last, ?_, h2, ?_, ?_⟩
        · simp [SplitAfter, hc, h1]
        · simp [h3]
        · intro p' hp'
          rcases List.mem_cons.mp hp' with rfl | hp'
          · obtain ⟨q, hq, hq'⟩ := h4 p (List.mem_cons_self _ _)
            refine ⟨c :: q, by simp [hq], ?_⟩
            intro hmem
            rcases List.mem_cons.mp hmem with h | h
            · exact hc h.symm
            · exact hq' h
          · exact h4 p' (List.mem_cons_of_mem _ hp')

/-- A concatenation of parts that all end in `sep` is empty or ends in `sep`. -/
theorem flatten_ends_sep (sep : UInt8) (init : List GoString)
    (h : ∀ p ∈ init, ∃ q, p = q ++ [sep] ∧ sep ∉ q) :
    init.flatten = [] ∨ ∃ q, init.flatten = q ++ [sep] := by
  rcases List.eq_nil_or_concat init with rfl | ⟨L, b, rfl⟩
  · exact Or.inl rfl
  · obtain ⟨q, hq, _⟩ := h b (by simp)
    exact Or.inr ⟨L.flatten ++ q, by simp [hq]⟩

/-- What follows the last separator of `pre ++ last` is `last`, when `last` has
no separator and `pre` is empty or ends in one. -/
theorem lastComponent_append (sep : UInt8) (pre last : GoString) (hlast : sep ∉ last)
    (hpre : pre = [] ∨ ∃ q, pre = q ++ [sep]) :
    lastComponent sep (pre ++ last) = last := by
  unfold lastComponent
  rw [List.reverse_append, List.takeWhile_append_of_pos]
  · rcases hpre with rfl | ⟨q, rfl⟩
    · simp
    · simp [List.takeWhile_cons]
  · intro a ha
    have : a ≠ sep := fun h => hlast (h ▸ List.mem_reverse.mp ha)
    simpa using this

/-- The last part of `SplitAfter` is the last component. -/
theorem SplitAfter_getLast (sep : UInt8) (s : GoString) :
    (SplitAfter sep s).getLast? = some (lastComponent sep s) := by
  obtain ⟨init, last, h1, h2, h3, h4⟩ := SplitAfter_shape sep s
  rw [h1, List.getLast?_concat]
  conv_rhs => rw [h3]
  rw [lastComponent_append sep _ _ h2 (flatten_ends_sep sep init h4)]

/-- The last component is a suffix of the path. -/
theorem lastComponent_suffix (sep : UInt8) (s : GoString) : lastComponent sep s <:+ s := by
  unfold lastComponent
  rw [← List.reverse_prefix, List.reverse_reverse]
  exact List.takeWhile_prefix _

/-- Go `strings.Split` returns one part more than there are separators. -/
theorem Split_length (sep : UInt8) (s : GoString) :
    (Split sep s).length = s.count sep + 1 := by
  induction s with
  | nil => rfl
  | cons c cs ih =>
    by_cases hc : c = sep
    · simp [Split, hc, ih]
    · have hne : (c == sep) = false := by simpa using hc
      cases h : Split sep cs with
      | nil => rw [h] at ih; simp at ih
      | cons p ps =>
        rw [h] at ih
        simp only [Split, hc, if_false, h, List.length_cons, List.count_cons, hne]
        simpa using ih

/-! ## Lemmas on the loop of `ShortenPath` -/

/-- The loop breaks, appending the marker and the separator, when the parts it
has still to visit do not fit into `maxLen`. -/
theorem shortenLoop_breaks (sep : UInt8) (maxLen : Int) (parts : List GoString) :
    ∀ (curLen : Int) (res : GoString), parts ≠ [] →
      curLen + ((parts.map List.length).sum : Nat) > maxLen →
      ∃ P, shortenLoop sep maxLen parts curLen res = res ++ P ++ (ellipsis ++ [sep]) := by
  induction parts with
  | nil => intro _ _ h; exact absurd rfl h
  | cons part rest ih =>
    intro curLen res _ hsum
    by_cases hb : curLen + (part.length : Int) > maxLen
    · exact ⟨[], by simp [shortenLoop, hb]⟩
    · have hrest : rest ≠ [] := by
        rintro rfl
        simp at hsum
        exact hb hsum
      have hsum' : curLen + (part.length : Int) + ((rest.map List.length).sum : Nat) > maxLen := by
        simp only [List.map_cons, List.sum_cons, Nat.cast_add] at hsum
        omega
      obtain ⟨P, hP⟩ := ih (curLen + part.length) (res ++ part) hrest hsum'
      exact ⟨part ++ P, by simp [shortenLoop, hb, hP]⟩

/-- Length of what the loop builds: with `curLen` the length of `res` plus the
`n` bytes of the last part, the kept parts and the last part fit into `maxLen`
unless nothing is kept; the marker and the separator add four bytes. -/
theorem shortenLoop_length (sep : UInt8) (maxLen : Int) (n : Nat) (parts : List GoString) :
    ∀ (curLen : Int) (res : GoString), curLen = (res.length : Int) + n →
      (res = [] ∨ curLen ≤ maxLen) →
      ((shortenLoop sep maxLen parts curLen res).length : Int) + n ≤ max maxLen n + 4 := by
  induction parts with
  | nil =>
    intro curLen res hinv hres
    simp only [shortenLoop]
    rcases hres with rfl | hle
    · simp only [List.length_nil]
      have := le_max_right maxLen (n : Int)
      omega
    · have := le_max_left maxLen (n : Int)
      omega
  | cons part rest ih =>
    intro curLen res hinv hres
    by_cases hb : curLen + (part.length : Int) > maxLen
    · simp only [shortenLoop, hb, if_true, List.length_append, ellipsis, List.length_cons,
        List.length_nil]
      rcases hres with rfl | hle
      · simp only [List.length_nil]
        have := le_max_right maxLen (n : Int)
        omega
      · have := le_max_left maxLen (n : Int)
        push_cast
        omega
    · simp only [shortenLoop, hb, if_false]
      refine ih _ _ ?_ (Or.inr (by omega))
      simp only [List.length_append]
      push_cast
      omega

/-- A path longer than `maxLen` is split into leading parts and its last
component, and the result is what the loop builds followed by that component. -/
theorem ShortenPath_long (sep : UInt8) (path : GoString) (maxLen : Int)
    (h : ¬ (path.length : Int) ≤ maxLen) :
    ∃ init, SplitAfter sep path = init ++ [lastComponent sep path] ∧
      ShortenPath sep path maxLen =
        some (shortenLoop sep maxLen init ((lastComponent sep path).length : Int) []
          ++ lastComponent sep path) := by
  obtain ⟨init, hinit⟩ := List.getLast?_eq_some_iff.mp (SplitAfter_getLast sep path)
  refine ⟨init, hinit, ?_⟩
  simp only [ShortenPath, h, if_false, SplitAfter_getLast]
  rw [hinit, List.dropLast_concat]

/-- The parts of a path have, together, the length of the path. -/
theorem SplitAfter_length (sep : UInt8) (path : GoString) (init : List GoString)
    (last : GoString) (h : SplitAfter sep path = init ++ [last]) :
    path.length = (init.map List.length).sum + last.length ∧ (sep ∈ path → init ≠ []) := by
  obtain ⟨init', last', h1, h2, h3, _⟩ := SplitAfter_shape sep path
  rw [h] at h1
  obtain ⟨rfl, hl⟩ := List.append_inj' h1 rfl
  have hl' : last = last' := by simpa using hl
  subst hl'
  constructor
  · conv_lhs => rw [h3]
    rw [List.length_append, List.length_flatten]
  · rintro hmem rfl
    rw [h3] at hmem
    exact h2 (by simpa using hmem)

/-! ## Claims on `ShortenPath` -/

/-- C1: a path that fits into `maxLen` is returned unchanged. -/
theorem ShortenPath_fits (sep : UInt8) (path : GoString) (maxLen : Int)
    (h : (path.length : Int) ≤ maxLen) : ShortenPath sep path maxLen = some path := by
  simp [ShortenPath, h]

/-- C1 at the drive root `C:\` with `maxLen = 10`. -/
theorem ShortenPath_fits_witness :
    ((str "C:\\").length : Int) ≤ 10 ∧ ShortenPath 92 (str "C:\\") 10 = some (str "C:\\") :=
  ⟨by decide, ShortenPath_fits 92 (str "C:\\") 10 (by decide)⟩

/-- C2 as stated fails: `/home/dundee/foo` shortened to `maxLen = 10` is the
13 bytes `/home/.../foo`. -/
theorem ShortenPath_exceeds_maxLen :
    ShortenPath 47 (str "/home/dundee/foo") 10 = some (str "/home/.../foo") ∧
      ¬ ((str "/home/.../foo").length : Int) ≤ 10 := by
  decide

/-- C2 amended: the result is at most `maxLen` long when the path fits;
otherwise it is at most four bytes (the marker and one separator) longer than
the larger of `maxLen` and the length of the last component. -/
theorem ShortenPath_length_le (sep : UInt8) (path : GoString) (maxLen : Int) :
    ∃ r, ShortenPath sep path maxLen = some r ∧
      (r.length : Int) ≤
        if (path.length : Int) ≤ maxLen then maxLen
        else max maxLen ((lastComponent sep path).length : Int) + 4 := by
  by_cases h : (path.length : Int) ≤ maxLen
  · exact ⟨path, if_pos h, by simp [h]⟩
  · obtain ⟨init, _, hr⟩ := ShortenPath_long sep path maxLen h
    refine ⟨_, hr, ?_⟩
    have hlen := shortenLoop_length sep maxLen (lastComponent sep path).length init
      ((lastComponent sep path).length : Int) [] (by simp) (Or.inl rfl)
    simp only [h, if_false, List.length_append]
    push_cast
    exact hlen

/-- C3 fails on the code: `/a/b` (4 bytes) shortened to `maxLen = 3` is the
6 bytes `/.../b`, longer than the path. -/
theorem ShortenPath_lengthens :
    ShortenPath 47 (str "/a/b") 3 = some (str "/.../b") ∧
      (str "/a/b").length < (str "/.../b").length := by
  decide

/-- C4: the result ends with the last component of the path. -/
theorem ShortenPath_keeps_lastComponent (sep : UInt8) (path : GoString) (maxLen : Int) :
    ∃ r, ShortenPath sep path maxLen = some r ∧ lastComponent sep path <:+ r := by
  by_cases h : (path.length : Int) ≤ maxLen
  · exact ⟨path, if_pos h, lastComponent_suffix sep path⟩
  · obtain ⟨init, _, hr⟩ := ShortenPath_long sep path maxLen h
    exact ⟨_, hr, List.suffix_append _ _⟩

/-- C5: a path with a separator that does not fit into `maxLen` is returned
with the marker `...` directly followed by the separator in it, so that
`strings.Split` of the result on the separator has at least two parts. -/
theorem ShortenPath_has_marker (sep : UInt8) (path : GoString) (maxLen : Int)
    (hsep : sep ∈ path) (hlen : (path.length : Int) > maxLen) :
    ∃ r, ShortenPath sep path maxLen = some r ∧ (ellipsis ++ [sep]) <:+: r ∧
      2 ≤ (Split sep r).length := by
  obtain ⟨init, hinit, hr⟩ := ShortenPath_long sep path maxLen (not_le.mpr hlen)
  obtain ⟨hsum, hne⟩ := SplitAfter_length sep path init _ hinit
  obtain ⟨P, hP⟩ := shortenLoop_breaks sep maxLen init
    ((lastComponent sep path).length : Int) [] (hne hsep) (by
      have : (path.length : Int)
          = ((init.map List.length).sum : Nat) + ((lastComponent sep path).length : Nat) := by
        rw [hsum]; push_cast; rfl
      omega)
  have hinfix : (ellipsis ++ [sep]) <:+: shortenLoop sep maxLen init
      ((lastComponent sep path).length : Int) [] ++ lastComponent sep path := by
    rw [hP]
    exact ⟨[] ++ P, lastComponent sep path, by simp⟩
  refine ⟨_, hr, hinfix, ?_⟩
  rw [Split_length]
  have hmem : sep ∈ shortenLoop sep maxLen init
      ((lastComponent sep path).length : Int) [] ++ lastComponent sep path :=
    hinfix.subset (by simp)
  have := List.count_pos_iff.mpr hmem
  omega

/-- C5 at `C:\Users\dundee\file.txt` with `maxLen = 15`. -/
theorem ShortenPath_has_marker_witness :
    ∃ r, ShortenPath 92 (str "C:\\Users\\dundee\\file.txt") 15 = some r ∧
      (ellipsis ++ [92]) <:+: r ∧ 2 ≤ (Split 92 r).length :=
  ShortenPath_has_marker 92 (str "C:\\Users\\dundee\\file.txt") 15 (by decide) (by decide)

/-! ## Lemmas on the drive enumeration -/

/-- The UTF-8 encoding of a code point is not empty. -/
theorem utf8EncodeChar_ne_nil (c : Char) : String.utf8EncodeChar c ≠ [] := by
  unfold String.utf8EncodeChar
  simp only
  split_ifs <;> simp

/-- Decoding UTF-16 units gives at least one byte when there is a unit. -/
theorem utf16Decode_ne_nil (s : List UInt16) (h : s ≠ []) : utf16Decode s ≠ [] := by
  match s, h with
  | [u], _ =>
    unfold utf16Decode
    split_ifs
    · simp [wtf8Surrogate]
    · exact utf8EncodeChar_ne_nil _
  | u :: v :: rest, _ =>
    unfold utf16Decode
    split_ifs
    · simp [utf8EncodeChar_ne_nil]
    · simp [wtf8Surrogate]
    · simp [utf8EncodeChar_ne_nil]

/-- The string of a buffer is empty exactly when the buffer starts with NUL. -/
theorem UTF16ToString_eq_nil_iff (b : List UInt16) :
    UTF16ToString b = [] ↔ b.headD 0 = 0 := by
  cases b with
  | nil => simp [UTF16ToString, utf16Decode]
  | cons u rest =>
    by_cases hu : u = 0
    · simp [UTF16ToString, utf16Decode, hu]
    · simp only [List.headD_cons, hu, iff_false]
      exact utf16Decode_ne_nil _ (by simp [List.takeWhile_cons, hu])

/-- The record `getDriveInfo` returns, field by field. -/
theorem getDriveInfo_record (os : Windows) (drive : GoString) (d : Device)
    (h : getDriveInfo os drive = some (.ok (some d))) :
    (os.GetDriveType drive = DRIVE_FIXED ∨ os.GetDriveType drive = DRIVE_REMOVABLE) ∧
    d.Name =
      (if (os.GetVolumeInformation drive).err = none ∧
          (buffer (os.GetVolumeInformation drive).volumeName).headD 0 ≠ 0 then
        UTF16ToString (buffer (os.GetVolumeInformation drive).volumeName) ++ str " ("
          ++ drive.take 2 ++ str ")"
      else drive.take 2) ∧
    d.MountPoint = drive.take 2 ++ str "\\" ∧
    d.Fstype = UTF16ToString (buffer (os.GetVolumeInformation drive).fsName) := by
  unfold getDriveInfo at h
  by_cases h0 : (0 : UInt8) ∈ drive
  · rw [if_pos h0] at h
    simp at h
  · by_cases ht : os.GetDriveType drive ≠ DRIVE_FIXED ∧ os.GetDriveType drive ≠ DRIVE_REMOVABLE
    · rw [if_neg h0, if_pos ht] at h
      simp at h
    · rw [if_neg h0, if_neg ht] at h
      split at h
      · simp at h
      · by_cases hl : drive.length < 2
        · rw [if_pos hl] at h
          simp at h
        · rw [if_neg hl] at h
          simp only [Option.some.injEq, Except.ok.injEq] at h
          subst h
          refine ⟨?_, rfl, rfl, rfl⟩
          by_contra hcon
          exact ht ⟨fun hf => hcon (Or.inl hf), fun hr => hcon (Or.inr hr)⟩

/-- The loop of `getLogicalDrives` appends, in the order of the bits visited,
the drive strings of the bits that are set. -/
theorem drives_foldl (mask : Nat) (bits : List Nat) :
    ∀ acc : List GoString,
      bits.foldl (fun drives i =>
          if (mask % 2 ^ 32) &&& (1 <<< i) ≠ 0 then drives ++ [driveString i] else drives) acc
        = acc ++ (bits.filter
            (fun i => decide ((mask % 2 ^ 32) &&& (1 <<< i) ≠ 0))).map driveString := by
  induction bits with
  | nil => intro acc; simp
  | cons i rest ih =>
    intro acc
    rw [List.foldl_cons, ih]
    by_cases hb : (mask % 2 ^ 32) &&& (1 <<< i) ≠ 0
    · simp only [ne_eq, Nat.reducePow] at hb
      simp [List.filter_cons, hb]
    · simp only [ne_eq, Nat.reducePow, not_not] at hb
      simp [List.filter_cons, hb]

/-- Every drive string of `getLogicalDrives` is that of one of the bits 0 to 25. -/
theorem getLogicalDrives_mem (os : Windows) (drives : List GoString) (drive : GoString)
    (h : getLogicalDrives os = .ok drives) (hd : drive ∈ drives) :
    ∃ i, i < 26 ∧ drive = driveString i := by
  unfold getLogicalDrives at h
  split at h
  · simp at h
  · rename_i mask _
    simp only [Except.ok.injEq] at h
    rw [drives_foldl, List.nil_append] at h
    subst h
    obtain ⟨i, hi, rfl⟩ := List.mem_map.mp hd
    exact ⟨i, List.mem_range.mp (List.mem_filter.mp hi).1, rfl⟩

/-- The drive string of a bit below 26 is an upper-case letter, a colon and a
backslash. -/
theorem driveString_letter :
    ∀ i, i < 26 → driveString i = [UInt8.ofNat (65 + i), 58, 92] ∧
      (65 : UInt8) ≤ UInt8.ofNat (65 + i) ∧ UInt8.ofNat (65 + i) ≤ (90 : UInt8) := by
  decide

/-- Every record in the slice the loop of `GetDevicesInfo` builds was there
before or is the record `getDriveInfo` returns for one of the drives. -/
theorem devicesLoop_mem (os : Windows) (drives : List GoString) :
    ∀ (acc devices : Devices) (d : Device), devicesLoop os drives acc = some devices →
      some d ∈ devices →
      some d ∈ acc ∨ ∃ drive ∈ drives, getDriveInfo os drive = some (.ok (some d)) := by
  induction drives with
  | nil =>
    intro acc devices d h hd
    simp only [devicesLoop, Option.some.injEq] at h
    exact Or.inl (h ▸ hd)
  | cons drive rest ih =>
    intro acc devices d h hd
    unfold devicesLoop at h
    split at h
    · simp at h
    · rcases ih acc devices d h hd with h1 | ⟨dr, hdr, hinfo⟩
      · exact Or.inl h1
      · exact Or.inr ⟨dr, List.mem_cons_of_mem _ hdr, hinfo⟩
    · rename_i device hdev
      rcases ih (acc ++ [device]) devices d h hd with h1 | ⟨dr, hdr, hinfo⟩
      · rcases List.mem_append.mp h1 with h2 | h2
        · exact Or.inl h2
        · have : device = some d := (List.mem_singleton.mp h2).symm
          exact Or.inr ⟨drive, List.mem_cons_self _ _, by rw [hdev, this]⟩
      · exact Or.inr ⟨dr, List.mem_cons_of_mem _ hdr, hinfo⟩

/-! ## Claims on the drive enumeration -/

/-- C6 fails on the code: on a system with the fixed drive C and the network
drive Z, `GetDevicesInfo` returns two entries, the record of C and a nil entry
for Z, where the claim has one entry and none for Z. -/
theorem GetDevicesInfo_nil_entry :
    GetDevicesInfo systemCZ = some (.ok [some deviceC, none]) ∧
      getDriveInfo systemCZ (str "Z:\\") = some (.ok none) := by
  constructor <;> rfl

/-- C7: the `Name` of the record `getDriveInfo` returns for the drive with
letter `L` is the volume label followed by ` (L:)` when the volume information
was read and the label is not empty, and `L:` otherwise; it is never empty. -/
theorem getDriveInfo_Name (os : Windows) (L : UInt8) (d : Device)
    (h : getDriveInfo os [L, 58, 92] = some (.ok (some d))) :
    d.Name =
      (if (os.GetVolumeInformation [L, 58, 92]).err = none ∧
          UTF16ToString (buffer (os.GetVolumeInformation [L, 58, 92]).volumeName) ≠ [] then
        UTF16ToString (buffer (os.GetVolumeInformation [L, 58, 92]).volumeName)
          ++ str " (" ++ [L, 58] ++ str ")"
      else [L, 58]) ∧
    d.Name ≠ [] := by
  obtain ⟨_, hname, _, _⟩ := getDriveInfo_record os _ d h
  have hiff := UTF16ToString_eq_nil_iff (buffer (os.GetVolumeInformation [L, 58, 92]).volumeName)
  have hcond : ((os.GetVolumeInformation [L, 58, 92]).err = none ∧
      (buffer (os.GetVolumeInformation [L, 58, 92]).volumeName).headD 0 ≠ 0) ↔
      ((os.GetVolumeInformation [L, 58, 92]).err = none ∧
        UTF16ToString (buffer (os.GetVolumeInformation [L, 58, 92]).volumeName) ≠ []) := by
    rw [Ne, Ne, hiff]
  have hname' : d.Name =
      (if (os.GetVolumeInformation [L, 58, 92]).err = none ∧
          UTF16ToString (buffer (os.GetVolumeInformation [L, 58, 92]).volumeName) ≠ [] then
        UTF16ToString (buffer (os.GetVolumeInformation [L, 58, 92]).volumeName)
          ++ str " (" ++ [L, 58] ++ str ")"
      else [L, 58]) := by
    rw [hname]
    by_cases hc : (os.GetVolumeInformation [L, 58, 92]).err = none ∧
        (buffer (os.GetVolumeInformation [L, 58, 92]).volumeName).headD 0 ≠ 0
    · rw [if_pos hc, if_pos (hcond.mp hc)]
      rfl
    · rw [if_neg hc, if_neg (fun hc' => hc (hcond.mpr hc'))]
      rfl
  refine ⟨hname', ?_⟩
  rw [hname']
  split_ifs
  · have : str ")" = [41] := by decide
    simp [this]
  · simp

/-- C7 on `systemCZ`: the label `System` on drive C gives `System (C:)`. -/
theorem getDriveInfo_Name_witness :
    getDriveInfo systemCZ [67, 58, 92] = some (.ok (some deviceC)) ∧
      deviceC.Name = str "System (C:)" ∧ deviceC.Name ≠ [] :=
  ⟨rfl, rfl, (getDriveInfo_Name systemCZ 67 deviceC rfl).2⟩

/-- C8: the `MountPoint` of every record `GetDevicesInfo` returns is an
upper-case letter, a colon and a backslash, and is one of the drive strings of
`getLogicalDrives`. -/
theorem GetDevicesInfo_MountPoint (os : Windows) (devices : Devices) (d : Device)
    (h : GetDevicesInfo os = some (.ok devices)) (hd : some d ∈ devices) :
    ∃ L : UInt8, 65 ≤ L ∧ L ≤ 90 ∧ d.MountPoint = [L, 58, 92] ∧
      ∃ drives, getLogicalDrives os = .ok drives ∧ d.MountPoint ∈ drives := by
  unfold GetDevicesInfo at h
  split at h
  · simp at h
  · rename_i drives hdrives
    split at h
    · simp at h
    · rename_i devices' hloop
      simp only [Option.some.injEq, Except.ok.injEq] at h
      subst h
      rcases devicesLoop_mem os drives [] devices' d hloop hd with h1 | ⟨drive, hdrive, hinfo⟩
      · simp at h1
      · obtain ⟨i, hi, rfl⟩ := getLogicalDrives_mem os drives drive hdrives hdrive
        obtain ⟨hstr, hlo, hhi⟩ := driveString_letter i hi
        obtain ⟨_, _, hmp, _⟩ := getDriveInfo_record os _ d hinfo
        have hmp' : d.MountPoint = [UInt8.ofNat (65 + i), 58, 92] := by
          rw [hmp, hstr]
          rfl
        refine ⟨UInt8.ofNat (65 + i), hlo, hhi, hmp', drives, hdrives, ?_⟩
        rw [hmp', ← hstr]
        exact hdrive

/-- C8 on `systemCZ`: the record of drive C has the mount point `C:\`. -/
theorem GetDevicesInfo_MountPoint_witness :
    ∃ L : UInt8, 65 ≤ L ∧ L ≤ 90 ∧ deviceC.MountPoint = [L, 58, 92] ∧
      ∃ drives, getLogicalDrives systemCZ = .ok drives ∧ deviceC.MountPoint ∈ drives :=
  GetDevicesInfo_MountPoint systemCZ [some deviceC, none] deviceC rfl (by simp)

/-- C9 fails on the code: when the volume information of the fixed drive C
cannot be read, the record returned for it has the empty `Fstype`. -/
theorem GetDevicesInfo_empty_Fstype :
    GetDevicesInfo systemNoVolumeInfo
      = some (.ok [some ⟨str "C:", str "C:\\", [], 1000, 400⟩]) := by
  rfl

/-- C10: when the enumeration of the logical drives fails with `e`,
`getLogicalDrives`, `GetDevicesInfo` and `GetMounts` return no list and `e`. -/
theorem GetDevicesInfo_error (os : Windows) (e : Errno) (h : os.GetLogicalDrives = .error e) :
    getLogicalDrives os = .error e ∧ GetDevicesInfo os = some (.error e) ∧
      GetMounts os = some (.error e) := by
  have hg : getLogicalDrives os = .error e := by
    unfold getLogicalDrives
    rw [h]
  refine ⟨hg, ?_, ?_⟩
  · unfold GetDevicesInfo
    rw [hg]
  · unfold GetMounts GetDevicesInfo
    rw [hg]

/-- C10 on `systemNoDrives`, where the enumeration fails with error 5. -/
theorem GetDevicesInfo_error_witness :
    getLogicalDrives systemNoDrives = .error 5 ∧ GetDevicesInfo systemNoDrives = some (.error 5) ∧
      GetMounts systemNoDrives = some (.error 5) :=
  GetDevicesInfo_error systemNoDrives 5 rfl

/-! ## More lemmas on the drive enumeration -/

/-- The test `mask&(1<<uint(i)) != 0` on the `uint32` mask reads bit `i`. -/
theorem mask_bit (mask i : Nat) (hi : i < 26) :
    ((mask % 2 ^ 32) &&& (1 <<< i) ≠ 0) ↔ mask.testBit i = true := by
  rw [Nat.one_shiftLeft, Nat.and_two_pow, Nat.testBit_mod_two_pow]
  have hlt : decide (i < 32) = true := by
    rw [decide_eq_true_iff]
    omega
  rw [hlt, Bool.true_and]
  have hpos : 0 < 2 ^ i := Nat.two_pow_pos i
  cases mask.testBit i
  · simp
  · simp only [Bool.toNat_true, one_mul, ne_eq, iff_true]
    omega

/-- The drives of `getLogicalDrives`: the drive strings of the bits set among
the bits 0 to 25 of the mask, in the order of the bits. -/
theorem getLogicalDrives_eq (os : Windows) (mask : Nat) (h : os.GetLogicalDrives = .ok mask) :
    getLogicalDrives os
      = .ok (((List.range 26).filter (fun i => mask.testBit i)).map driveString) := by
  unfold getLogicalDrives
  rw [h]
  simp only [drives_foldl, List.nil_append]
  congr 2
  apply List.filter_congr
  intro i hi
  have hi' : i < 26 := List.mem_range.mp hi
  by_cases hb : mask.testBit i = true
  · rw [hb]
    exact decide_eq_true ((mask_bit mask i hi').mpr hb)
  · have hb' : mask.testBit i = false := by simpa using hb
    rw [hb']
    exact decide_eq_false (fun hc => hb ((mask_bit mask i hi').mp hc))

/-- Distinct bits below 26 have distinct drive strings. -/
theorem driveString_injective :
    ∀ i, i < 26 → ∀ j, j < 26 → driveString i = driveString j → i = j := by
  decide

/-- The drive letters grow with the bits. -/
theorem driveString_ascending :
    ∀ j, j < 26 → ∀ i, i < j → (driveString i).headD 0 < (driveString j).headD 0 := by
  decide

/-- On a drive string of two bytes or more `getDriveInfo` does not panic. -/
theorem getDriveInfo_no_panic (os : Windows) (drive : GoString) (h : 2 ≤ drive.length) :
    getDriveInfo os drive ≠ none := by
  unfold getDriveInfo
  have hl : ¬ drive.length < 2 := by omega
  split_ifs
  · simp
  · simp
  · split
    · simp
    · simp [hl]

/-- The loop of `GetDevicesInfo`, on drive strings of two bytes or more, appends
in order the results of the drives whose `getDriveInfo` gives no error. -/
theorem devicesLoop_eq (os : Windows) (drives : List GoString) :
    ∀ acc : Devices, (∀ drive ∈ drives, 2 ≤ drive.length) →
      devicesLoop os drives acc = some (acc ++ drives.filterMap (fun drive =>
        match getDriveInfo os drive with
        | some (.ok device) => some device
        | _ => none)) := by
  induction drives with
  | nil => intro acc _; simp [devicesLoop]
  | cons drive rest ih =>
    intro acc hlen
    have hrest : ∀ d ∈ rest, 2 ≤ d.length := fun d hd => hlen d (List.mem_cons_of_mem _ hd)
    have hnp := getDriveInfo_no_panic os drive (hlen drive (List.mem_cons_self _ _))
    unfold devicesLoop
    cases hinfo : getDriveInfo os drive with
    | none => exact absurd hinfo hnp
    | some r =>
      cases r with
      | error e => simp [ih acc hrest, List.filterMap_cons, hinfo]
      | ok device => simp [ih (acc ++ [device]) hrest, List.filterMap_cons, hinfo]

/-! ## More claims on the drive enumeration -/

/-- C11: every string `getLogicalDrives` returns has exactly 3 bytes, an
upper-case letter A to Z followed by a colon and a backslash. -/
theorem getLogicalDrives_format (os : Windows) (drives : List GoString) (drive : GoString)
    (h : getLogicalDrives os = .ok drives) (hd : drive ∈ drives) :
    drive.length = 3 ∧ ∃ L : UInt8, 65 ≤ L ∧ L ≤ 90 ∧ drive = L :: str ":\\" := by
  obtain ⟨i, hi, rfl⟩ := getLogicalDrives_mem os drives drive h hd
  obtain ⟨hstr, hlo, hhi⟩ := driveString_letter i hi
  rw [hstr]
  exact ⟨rfl, UInt8.ofNat (65 + i), hlo, hhi, rfl⟩

/-- C11 on `systemCZ`, for the drive string `C:\`. -/
theorem getLogicalDrives_format_witness :
    (str "C:\\").length = 3 ∧ ∃ L : UInt8, 65 ≤ L ∧ L ≤ 90 ∧ str "C:\\" = L :: str ":\\" :=
  getLogicalDrives_format systemCZ [str "C:\\", str "Z:\\"] (str "C:\\") rfl (by decide)

/-- C19: `getLogicalDrives` returns the drive strings of exactly the bits set
among the bits 0 to 25 of the mask, whatever the bits from 26 on, in strictly
ascending order of the letters and without duplicates, as many as there are
bits set among the low 26. -/
theorem getLogicalDrives_decodes (os : Windows) (mask : Nat)
    (h : os.GetLogicalDrives = .ok mask) :
    ∃ drives, getLogicalDrives os = .ok drives ∧
      (∀ i, i < 26 → (driveString i ∈ drives ↔ mask.testBit i = true)) ∧
      (∀ drive ∈ drives, ∃ i, i < 26 ∧ drive = driveString i) ∧
      (∀ os2 : Windows, os2.GetLogicalDrives = .ok (mask % 2 ^ 26) →
        getLogicalDrives os2 = .ok drives) ∧
      drives.Pairwise (fun a b => a.headD 0 < b.headD 0) ∧
      drives.Nodup ∧
      drives.length = ((List.range 26).filter (fun i => mask.testBit i)).length := by
  have hpair : (((List.range 26).filter (fun i => mask.testBit i)).map driveString).Pairwise
      (fun a b => a.headD 0 < b.headD 0) := by
    have h1 : (List.range 26).Pairwise (fun a b => a < b ∧ b < 26) := by
      have h0 := List.Pairwise.and_mem.mp (List.pairwise_lt_range 26)
      exact h0.imp (fun hab => ⟨hab.2.2, List.mem_range.mp hab.2.1⟩)
    exact (h1.filter _).map driveString (fun a b hab => driveString_ascending b hab.2 a hab.1)
  refine ⟨_, getLogicalDrives_eq os mask h, ?_, ?_, ?_, hpair, ?_, by simp⟩
  · intro i hi
    constructor
    · intro hmem
      obtain ⟨j, hj, hji⟩ := List.mem_map.mp hmem
      have hj' := List.mem_filter.mp hj
      have : j = i := driveString_injective j (List.mem_range.mp hj'.1) i hi hji
      exact this ▸ hj'.2
    · intro hbit
      exact List.mem_map.mpr ⟨i, List.mem_filter.mpr ⟨List.mem_range.mpr hi, hbit⟩, rfl⟩
  · intro drive hmem
    obtain ⟨j, hj, hji⟩ := List.mem_map.mp hmem
    exact ⟨j, List.mem_range.mp (List.mem_filter.mp hj).1, hji.symm⟩
  · intro os2 h2
    rw [getLogicalDrives_eq os2 _ h2]
    congr 2
    apply List.filter_congr
    intro i hi
    have hi' : i < 26 := List.mem_range.mp hi
    rw [Nat.testBit_mod_two_pow]
    simp [hi']
  · exact hpair.imp (fun hab heq => by rw [heq] at hab; exact UInt8.lt_irrefl _ hab)

/-- C19 on `systemCZ`, whose mask has the bits 2 and 25. -/
theorem getLogicalDrives_decodes_witness :
    getLogicalDrives systemCZ = .ok [str "C:\\", str "Z:\\"] ∧
    ∃ drives, getLogicalDrives systemCZ = .ok drives ∧
      (∀ i, i < 26 → (driveString i ∈ drives ↔ (2 ^ 2 + 2 ^ 25).testBit i = true)) ∧
      (∀ drive ∈ drives, ∃ i, i < 26 ∧ drive = driveString i) ∧
      (∀ os2 : Windows, os2.GetLogicalDrives = .ok ((2 ^ 2 + 2 ^ 25) % 2 ^ 26) →
        getLogicalDrives os2 = .ok drives) ∧
      drives.Pairwise (fun a b => a.headD 0 < b.headD 0) ∧
      drives.Nodup ∧
      drives.length = ((List.range 26).filter (fun i => (2 ^ 2 + 2 ^ 25).testBit i)).length :=
  ⟨rfl, getLogicalDrives_decodes systemCZ (2 ^ 2 + 2 ^ 25) rfl⟩

/-- C20: when the enumeration of the logical drives succeeds, `GetDevicesInfo`
returns a nil error and, in the order of the drives, the results of exactly the
drives for which `getDriveInfo` returns no error. -/
theorem GetDevicesInfo_skips_errors (os : Windows) (drives : List GoString)
    (h : getLogicalDrives os = .ok drives) :
    GetDevicesInfo os = some (.ok (drives.filterMap (fun drive =>
      match getDriveInfo os drive with
      | some (.ok device) => some device
      | _ => none))) := by
  have hlen : ∀ drive ∈ drives, 2 ≤ drive.length := by
    intro drive hd
    obtain ⟨i, hi, rfl⟩ := getLogicalDrives_mem os drives drive h hd
    rw [(driveString_letter i hi).1]
    simp
  unfold GetDevicesInfo
  rw [h]
  simp only [devicesLoop_eq os drives [] hlen, List.nil_append]

/-- C20 on `systemCDE`: drive D, whose disk space cannot be read, is left out and
C and E are reported in this order. -/
theorem GetDevicesInfo_skips_errors_witness :
    getDriveInfo systemCDE (str "D:\\") = some (.error 21) ∧
    GetDevicesInfo systemCDE = some (.ok
      [some ⟨str "System (C:)", str "C:\\", str "NTFS", 1000, 400⟩,
       some ⟨str "E:", str "E:\\", str "FAT32", 1000, 400⟩]) :=
  ⟨rfl, (GetDevicesInfo_skips_errors systemCDE
    [str "C:\\", str "D:\\", str "E:\\"] rfl).trans rfl⟩

/-! ## The exact result of `ShortenPath` -/

/-- The parts of `SplitAfter`, when the last is split off: the last has no
separator, the others end each in their only separator, and together they
spell the path. -/
theorem SplitAfter_parts (sep : UInt8) (path : GoString) (init : List GoString)
    (last : GoString) (h : SplitAfter sep path = init ++ [last]) :
    sep ∉ last ∧ path = init.flatten ++ last ∧ ∀ p ∈ init, ∃ q, p = q ++ [sep] ∧ sep ∉ q := by
  obtain ⟨init2, last2, h1, h2, h3, h4⟩ := SplitAfter_shape sep path
  rw [h] at h1
  obtain ⟨rfl, hl⟩ := List.append_inj' h1 rfl
  have hl2 : last = last2 := by simpa using hl
  subst hl2
  exact ⟨h2, h3, h4⟩

/-- The loop of `ShortenPath` keeps the first `k` parts, where `k` is the first
index at which the parts kept so far, the next part and the last part exceed
`maxLen` together. -/
theorem shortenLoop_exact (sep : UInt8) (maxLen : Int) (parts : List GoString) :
    ∀ (curLen : Int) (res : GoString), parts ≠ [] →
      curLen + (parts.flatten.length : Int) > maxLen →
      ∃ k, k < parts.length ∧
        shortenLoop sep maxLen parts curLen res
          = res ++ (parts.take k).flatten ++ (ellipsis ++ [sep]) ∧
        (0 < k → curLen + ((parts.take k).flatten.length : Int) ≤ maxLen) ∧
        curLen + ((parts.take (k + 1)).flatten.length : Int) > maxLen := by
  induction parts with
  | nil => intro _ _ h; exact absurd rfl h
  | cons part rest ih =>
    intro curLen res _ hsum
    by_cases hb : curLen + (part.length : Int) > maxLen
    · refine ⟨0, by simp, by simp [shortenLoop, hb], by simp, ?_⟩
      simpa using hb
    · have hrest : rest ≠ [] := by
        rintro rfl
        simp at hsum
        exact hb hsum
      have hsum2 : curLen + (part.length : Int) + (rest.flatten.length : Int) > maxLen := by
        simp only [List.flatten_cons, List.length_append, Nat.cast_add] at hsum
        omega
      obtain ⟨k, hk, hres, hfit, hnext⟩ := ih (curLen + part.length) (res ++ part) hrest hsum2
      refine ⟨k + 1, by simpa using hk, ?_, ?_, ?_⟩
      · simp [shortenLoop, hb, hres]
      · intro _
        simp only [List.take_succ_cons, List.flatten_cons, List.length_append, Nat.cast_add]
        rcases Nat.eq_zero_or_pos k with rfl | hpos
        · simp only [List.take_zero, List.flatten_nil, List.length_nil, Nat.cast_zero]
          omega
        · have := hfit hpos
          omega
      · simp only [List.take_succ_cons, List.flatten_cons, List.length_append, Nat.cast_add]
        omega

/-- Taking more parts gives a longer concatenation. -/
theorem take_flatten_length_mono (parts : List GoString) (j k : Nat) (h : j ≤ k) :
    (parts.take j).flatten.length ≤ (parts.take k).flatten.length := by
  have h1 : parts.take j = (parts.take k).take j := by
    rw [List.take_take, Nat.min_eq_left h]
  have h2 : parts.take k = (parts.take k).take j ++ (parts.take k).drop j :=
    (List.take_append_drop j _).symm
  rw [h1]
  conv_rhs => rw [h2]
  rw [List.flatten_append, List.length_append]
  omega

/-- A prefix of the path that ends in the separator is the concatenation of
some number of its leading parts. -/
theorem prefix_is_take (sep : UInt8) (init : List GoString) (last : GoString)
    (hinit : ∀ p ∈ init, ∃ q, p = q ++ [sep] ∧ sep ∉ q) (hlast : sep ∉ last) :
    ∀ Q : GoString, Q <+: init.flatten ++ last → Q.getLast? = some sep →
      ∃ j, j ≤ init.length ∧ Q = (init.take j).flatten := by
  induction init with
  | nil =>
    intro Q hQ hend
    exfalso
    obtain ⟨Q1, rfl⟩ := List.getLast?_eq_some_iff.mp hend
    exact hlast (hQ.subset (by simp))
  | cons p ps ih =>
    intro Q hQ hend
    obtain ⟨q, hp, hq⟩ := hinit p (List.mem_cons_self _ _)
    have hps : ∀ x ∈ ps, ∃ y, x = y ++ [sep] ∧ sep ∉ y :=
      fun x hx => hinit x (List.mem_cons_of_mem _ hx)
    have hflat : (p :: ps).flatten ++ last = p ++ (ps.flatten ++ last) := by simp
    rw [hflat] at hQ
    rcases List.prefix_or_prefix_of_prefix hQ (List.prefix_append p _) with hQp | hpQ
    · obtain ⟨Q1, rfl⟩ := List.getLast?_eq_some_iff.mp hend
      obtain ⟨t, ht⟩ := hQp
      rcases List.eq_nil_or_concat t with rfl | ⟨t1, x, rfl⟩
      · refine ⟨1, by simp, ?_⟩
        simpa using ht
      · exfalso
        rw [hp, List.concat_eq_append, ← List.append_assoc] at ht
        have hq2 : Q1 ++ [sep] ++ t1 = q := (List.append_inj' ht rfl).1
        exact hq (hq2 ▸ by simp)
    · obtain ⟨Q2, rfl⟩ := hpQ
      have hQ2 : Q2 <+: ps.flatten ++ last := (List.prefix_append_right_inj p).mp hQ
      rcases List.eq_nil_or_concat Q2 with rfl | ⟨Q3, x, rfl⟩
      · exact ⟨1, by simp, by simp⟩
      · rw [List.concat_eq_append] at hQ2 hend
        have hend2 : (Q3 ++ [x]).getLast? = some sep := by
          rw [← List.append_assoc, List.getLast?_concat] at hend
          rw [List.getLast?_concat]
          exact hend
        obtain ⟨j, hj, hQj⟩ := ih hps (Q3 ++ [x]) hQ2 hend2
        exact ⟨j + 1, by simpa using hj, by simp [List.concat_eq_append, hQj]⟩

/-! ## Claim on the exact result of `ShortenPath` -/

/-- C18: for a path that has a separator and does not fit into `maxLen`, the
result is `P`, the marker, the separator and the last component, where `P` is
the longest prefix of whole leading components that fits into `maxLen` together
with the last component, and is empty when no such non-empty prefix exists. -/
theorem ShortenPath_exact (sep : UInt8) (path : GoString) (maxLen : Int)
    (hsep : sep ∈ path) (hlen : (path.length : Int) > maxLen) :
    ∃ P, ShortenPath sep path maxLen
        = some (P ++ ellipsis ++ [sep] ++ lastComponent sep path) ∧
      wholePrefix sep P path ∧
      (P ≠ [] → (P.length : Int) + ((lastComponent sep path).length : Int) ≤ maxLen) ∧
      ∀ Q, wholePrefix sep Q path → Q ≠ [] →
        (Q.length : Int) + ((lastComponent sep path).length : Int) ≤ maxLen →
        Q.length ≤ P.length := by
  obtain ⟨init, hinit, hr⟩ := ShortenPath_long sep path maxLen (not_le.mpr hlen)
  obtain ⟨hlast, hpath, hparts⟩ := SplitAfter_parts sep path init _ hinit
  have hne : init ≠ [] := (SplitAfter_length sep path init _ hinit).2 hsep
  have hplen : path.length = init.flatten.length + (lastComponent sep path).length := by
    conv_lhs => rw [hpath]
    rw [List.length_append]
  obtain ⟨k, hk, hres, hfit, hnext⟩ := shortenLoop_exact sep maxLen init
    ((lastComponent sep path).length : Int) [] hne (by omega)
  refine ⟨(init.take k).flatten, ?_, ⟨?_, ?_⟩, ?_, ?_⟩
  · rw [hr, hres]
    simp
  · refine ⟨(init.drop k).flatten ++ lastComponent sep path, ?_⟩
    conv_rhs => rw [hpath]
    rw [← List.append_assoc, ← List.flatten_append, List.take_append_drop]
  · rcases flatten_ends_sep sep (init.take k)
        (fun p hp => hparts p (List.mem_of_mem_take hp)) with h0 | ⟨q, hq⟩
    · exact Or.inl h0
    · exact Or.inr (by rw [hq, List.getLast?_concat])
  · intro hP
    have hk0 : 0 < k := by
      rcases Nat.eq_zero_or_pos k with rfl | h
      · simp at hP
      · exact h
    have := hfit hk0
    omega
  · intro Q hQ hQne hQfit
    rcases hQ.2 with h0 | hend
    · exact absurd h0 hQne
    · have hQpre : Q <+: init.flatten ++ lastComponent sep path := hpath ▸ hQ.1
      obtain ⟨j, _, rfl⟩ := prefix_is_take sep init _ hparts hlast Q hQpre hend
      by_contra hcon
      have hjk : k + 1 ≤ j := by
        by_contra hjk
        exact hcon (take_flatten_length_mono init j k (by omega))
      have := take_flatten_length_mono init (k + 1) j hjk
      omega

/-- C18 on `/home/dundee/foo/bar.txt` with `maxLen = 20`; the result is
`/home/dundee/.../bar.txt`, and with `maxLen = 15` it is `/home/.../bar.txt`. -/
theorem ShortenPath_exact_witness :
    ShortenPath 47 (str "/home/dundee/foo/bar.txt") 20 = some (str "/home/dundee/.../bar.txt") ∧
    ShortenPath 47 (str "/home/dundee/foo/bar.txt") 15 = some (str "/home/.../bar.txt") ∧
    ∃ P, ShortenPath 47 (str "/home/dundee/foo/bar.txt") 20
        = some (P ++ ellipsis ++ [47] ++ lastComponent 47 (str "/home/dundee/foo/bar.txt")) ∧
      wholePrefix 47 P (str "/home/dundee/foo/bar.txt") ∧
      (P ≠ [] → (P.length : Int)
        + ((lastComponent 47 (str "/home/dundee/foo/bar.txt")).length : Int) ≤ 20) ∧
      ∀ Q, wholePrefix 47 Q (str "/home/dundee/foo/bar.txt") → Q ≠ [] →
        (Q.length : Int)
          + ((lastComponent 47 (str "/home/dundee/foo/bar.txt")).length : Int) ≤ 20 →
        Q.length ≤ P.length :=
  ⟨by decide, by decide,
    ShortenPath_exact 47 (str "/home/dundee/foo/bar.txt") 20 (by decide) (by decide)⟩

/-! ## Claims on the platform attributes -/

/-- C12: after `setPlatformSpecificAttrs` the modification time of the file is
that of the metadata record. -/
theorem setPlatformSpecificAttrs_Mtime (file : File) (f : FileInfo) :
    (setPlatformSpecificAttrs file f).Mtime = f.ModTime := by
  rfl

/-- C13 as stated fails: the file of 5 bytes has, after the call, the allocated
size 0 it had before and the byte size 5. -/
theorem setPlatformSpecificAttrs_allocated_ne_size :
    (setPlatformSpecificAttrs file5 file5Info).allocatedBytes = 0 ∧
      (setPlatformSpecificAttrs file5 file5Info).Size = 5 ∧
      (setPlatformSpecificAttrs file5 file5Info).allocatedBytes
        ≠ (setPlatformSpecificAttrs file5 file5Info).Size := by
  decide

/-- C13 amended: `setPlatformSpecificAttrs` of dir_other.go sets only the
modification time: the allocated size and the byte size of the file, and its
name, multiplicity and key, are after the call what they were before, so that
the allocated size equals the byte size after the call exactly when it did
before. -/
theorem setPlatformSpecificAttrs_only_Mtime (file : File) (f : FileInfo) :
    (setPlatformSpecificAttrs file f).Mtime = f.ModTime ∧
      (setPlatformSpecificAttrs file f).allocatedBytes = file.allocatedBytes ∧
      (setPlatformSpecificAttrs file f).Size = file.Size ∧
      (setPlatformSpecificAttrs file f).Name = file.Name ∧
      (setPlatformSpecificAttrs file f).multiplicity = file.multiplicity ∧
      (setPlatformSpecificAttrs file f).key = file.key ∧
      ((setPlatformSpecificAttrs file f).allocatedBytes = (setPlatformSpecificAttrs file f).Size
        ↔ file.allocatedBytes = file.Size) := by
  exact ⟨rfl, rfl, rfl, rfl, rfl, rfl, Iff.rfl⟩

/-! ## Claim on the aggregated item count -/

mutual
/-- In an aggregated tree the count of a directory is one plus the counts of
its children. -/
theorem UpdateStats_nodes : ∀ (t : Item) (f : File) (base : GoString) (c : Int)
    (files : List Item), Item.dir f base c files ∈ (UpdateStats t).nodes →
      c = 1 + (files.map Item.itemCount).sum
  | .file k g, f, base, c, files, h => by
    simp [UpdateStats, Item.nodes] at h
  | .dir g b c0 fs, f, base, c, files, h => by
    simp only [UpdateStats, Item.nodes, List.mem_cons] at h
    rcases h with h | h
    · injection h with h1 h2 h3 h4
      rw [h3, h4]
    · exact UpdateStatsAll_nodes fs f base c files h
/-- The same in the aggregated trees of a list. -/
theorem UpdateStatsAll_nodes : ∀ (ts : List Item) (f : File) (base : GoString) (c : Int)
    (files : List Item), Item.dir f base c files ∈ Item.nodesAll (UpdateStatsAll ts) →
      c = 1 + (files.map Item.itemCount).sum
  | [], f, base, c, files, h => by
    simp [UpdateStatsAll, Item.nodesAll] at h
  | t :: ts, f, base, c, files, h => by
    simp only [UpdateStatsAll, Item.nodesAll, List.mem_append] at h
    rcases h with h | h
    · exact UpdateStats_nodes t f base c files h
    · exact UpdateStatsAll_nodes ts f base c files h
end

/-- C16: after `UpdateStats` the aggregated item count of every directory of
the tree is one plus the sum of the aggregated item counts of its children, a
file counting as one; the root of the test tree has the count 5, in either
order of its children. -/
theorem UpdateStats_itemCount :
    (∀ (t : Item) (f : File) (base : GoString) (c : Int) (files : List Item),
      Item.dir f base c files ∈ (UpdateStats t).nodes →
        c = 1 + (files.map Item.itemCount).sum) ∧
    (∀ (k : LeafKind) (f : File), (Item.file k f).itemCount = 1) ∧
    (UpdateStats testDir).itemCount = 5 ∧
    (UpdateStats testDirReordered).itemCount = 5 := by
  exact ⟨UpdateStats_nodes, fun _ _ => rfl, by decide, by decide⟩

/-- C16 on the test tree, at its directory `nested`: the count 3 is one plus
the count 2 of `subnested`. -/
theorem UpdateStats_itemCount_witness :
    (3 : Int) = 1 + ([UpdateStats (mkDir "subnested" [mkFile "file2" 2])].map
      Item.itemCount).sum :=
  UpdateStats_itemCount.1 testDir ⟨str "nested", 0, 0, 0, 1, none⟩ [] 3
    [UpdateStats (mkDir "subnested" [mkFile "file2" 2])]
    (by simp [testDir, mkDir, mkFile, UpdateStats, UpdateStatsAll, Item.nodes, Item.nodesAll,
      Item.itemCount])

/-! ## Claim on the report round trip -/

/-- A tree has at least one record. -/
theorem serialize_length_pos (t : Item) : 0 < (serialize t).length := by
  cases t <;> simp [serialize]

mutual
/-- Reading the records of a tree gives the tree back, before its siblings. -/
theorem parseItems_serialize : ∀ (t : Item) (fuel n : Nat) (rest : List Record),
    (serialize t).length ≤ fuel →
      parseItems (fuel + 1) (n + 1) (serialize t ++ rest) =
        match parseItems fuel n rest with
        | .error e => .error e
        | .ok (siblings, rest2) => .ok (t :: siblings, rest2)
  | .file k f, fuel, n, rest, _ => by
    simp [serialize, parseItems]
  | .dir f base c files, fuel, n, rest, h => by
    have hlen : (serializeAll files).length < fuel := by
      simp only [serialize, List.length_cons] at h
      omega
    have hfiles := parseItems_serializeAll files fuel rest hlen
    simp [serialize, parseItems, hfiles]
/-- Reading the records of a list of trees gives the list back. -/
theorem parseItems_serializeAll : ∀ (ts : List Item) (fuel : Nat) (rest : List Record),
    (serializeAll ts).length < fuel →
      parseItems fuel ts.length (serializeAll ts ++ rest) = .ok (ts, rest)
  | [], fuel, rest, _ => by
    simp [serializeAll, parseItems]
  | t :: ts, fuel, rest, h => by
    cases fuel with
    | zero => simp at h
    | succ fuel =>
      have hpos := serialize_length_pos t
      simp only [serializeAll, List.length_append] at h
      rw [serializeAll, List.append_assoc, List.length_cons,
        parseItems_serialize t fuel ts.length _ (by omega),
        parseItems_serializeAll ts fuel rest (by omega)]
end

/-- C14: importing the report exported for a tree gives the tree itself, with
its root path, its node names, its sizes and its parent-child relations. -/
theorem ReadAnalysis_WriteAnalysis (t : Item) : ReadAnalysis (WriteAnalysis t) = .ok t := by
  have h := parseItems_serialize t (serialize t).length 0 [] (le_refl _)
  rw [List.append_nil] at h
  simp [ReadAnalysis, WriteAnalysis, h, parseItems]

/-! ## Lemmas on the patterns -/

/-- C21: when the stat of the path fails, `setDirPlatformSpecificAttrs` leaves
the directory node as it was; when it succeeds, the modification time of the
node becomes that of the stat and every other field stays as it was.  No error
leaves the function in either case. -/
theorem setDirPlatformSpecificAttrs_bestEffort (osStat : GoString → Except Errno FileInfo)
    (dir : Dir) (path : GoString) :
    (∀ e, osStat path = .error e → setDirPlatformSpecificAttrs osStat dir path = dir) ∧
    (∀ stat, osStat path = .ok stat →
      (setDirPlatformSpecificAttrs osStat dir path).File.Mtime = stat.ModTime ∧
      (setDirPlatformSpecificAttrs osStat dir path).File.Name = dir.File.Name ∧
      (setDirPlatformSpecificAttrs osStat dir path).File.Size = dir.File.Size ∧
      (setDirPlatformSpecificAttrs osStat dir path).File.allocatedBytes
        = dir.File.allocatedBytes ∧
      (setDirPlatformSpecificAttrs osStat dir path).File.multiplicity
        = dir.File.multiplicity ∧
      (setDirPlatformSpecificAttrs osStat dir path).File.key = dir.File.key ∧
      (setDirPlatformSpecificAttrs osStat dir path).BasePath = dir.BasePath ∧
      (setDirPlatformSpecificAttrs osStat dir path).ItemCount = dir.ItemCount ∧
      (setDirPlatformSpecificAttrs osStat dir path).Files = dir.Files) := by
  constructor
  · intro e h
    simp only [setDirPlatformSpecificAttrs, h]
  · intro stat h
    simp only [setDirPlatformSpecificAttrs, h, and_self]

/-- C21 on the directory `nested`: a failing stat leaves it as it was, the stat
of `test_dir\nested` sets its modification time. -/
theorem setDirPlatformSpecificAttrs_bestEffort_witness :
    setDirPlatformSpecificAttrs statNested dirNested (str "missing") = dirNested ∧
    (setDirPlatformSpecificAttrs statNested dirNested (str "test_dir\\nested")).File.Mtime
      = 1700000000 :=
  ⟨(setDirPlatformSpecificAttrs_bestEffort statNested dirNested (str "missing")).1 2 rfl,
    ((setDirPlatformSpecificAttrs_bestEffort statNested dirNested
      (str "test_dir\\nested")).2 ⟨str "nested", 4096, 1700000000, true⟩ rfl).1⟩

/-! ## More lemmas on `ShortenPath` -/

/-- A string without separator is its only part. -/
theorem SplitAfter_no_sep (sep : UInt8) (s : GoString) (h : sep ∉ s) :
    SplitAfter sep s = [s] := by
  induction s with
  | nil => rfl
  | cons c cs ih =>
    have hc : c ≠ sep := fun hc => h (hc ▸ List.mem_cons_self _ _)
    have hcs : sep ∉ cs := fun hm => h (List.mem_cons_of_mem _ hm)
    simp [SplitAfter, hc, ih hcs]

/-- The first part of a string ends at its first separator. -/
theorem SplitAfter_part (sep : UInt8) (q rest : GoString) (h : sep ∉ q) :
    SplitAfter sep (q ++ [sep] ++ rest) = (q ++ [sep]) :: SplitAfter sep rest := by
  induction q with
  | nil => simp [SplitAfter]
  | cons c cs ih =>
    have hc : c ≠ sep := fun hc => h (hc ▸ List.mem_cons_self _ _)
    have hcs : sep ∉ cs := fun hm => h (List.mem_cons_of_mem _ hm)
    simp only [List.cons_append]
    simp only [SplitAfter, hc, if_false, ih hcs]

/-- Parts that each end in their only separator, and a last part without
separator, are the parts of their concatenation. -/
theorem SplitAfter_of_parts (sep : UInt8) (init : List GoString) (last : GoString)
    (hinit : ∀ p ∈ init, ∃ q, p = q ++ [sep] ∧ sep ∉ q) (hlast : sep ∉ last) :
    SplitAfter sep (init.flatten ++ last) = init ++ [last] := by
  induction init with
  | nil => simpa using SplitAfter_no_sep sep last hlast
  | cons p ps ih =>
    obtain ⟨q, hp, hq⟩ := hinit p (List.mem_cons_self _ _)
    have hps : ∀ x ∈ ps, ∃ y, x = y ++ [sep] ∧ sep ∉ y :=
      fun x hx => hinit x (List.mem_cons_of_mem _ hx)
    rw [List.flatten_cons, List.append_assoc, hp, SplitAfter_part sep q _ hq, ih hps]
    rfl

/-- The loop passes over leading parts that fit into `maxLen` together. -/
theorem shortenLoop_append (sep : UInt8) (maxLen : Int) (A B : List GoString) :
    ∀ (curLen : Int) (res : GoString),
      (A ≠ [] → curLen + (A.flatten.length : Int) ≤ maxLen) →
      shortenLoop sep maxLen (A ++ B) curLen res
        = shortenLoop sep maxLen B (curLen + (A.flatten.length : Int)) (res ++ A.flatten) := by
  induction A with
  | nil => intro curLen res _; simp
  | cons a rest ih =>
    intro curLen res h
    have hfit := h (by simp)
    simp only [List.flatten_cons, List.length_append, Nat.cast_add] at hfit
    have hb : ¬ curLen + (a.length : Int) > maxLen := by omega
    have hrest : rest ≠ [] → curLen + (a.length : Int) + (rest.flatten.length : Int) ≤ maxLen :=
      fun _ => by omega
    show shortenLoop sep maxLen (a :: (rest ++ B)) curLen res = _
    rw [shortenLoop, if_neg hb, ih _ _ hrest]
    simp only [List.flatten_cons, List.length_append, Nat.cast_add, List.append_assoc, add_assoc]

/-- On a single part the loop appends it, whether it breaks or not, when the
part is the marker and the separator. -/
theorem shortenLoop_marker (sep : UInt8) (maxLen curLen : Int) (res : GoString) :
    shortenLoop sep maxLen [ellipsis ++ [sep]] curLen res = res ++ (ellipsis ++ [sep]) := by
  simp only [shortenLoop]
  split_ifs <;> rfl

/-! ## More claims on `ShortenPath` -/

/-- C22: `ShortenPath` returns a string for every path and every `maxLen`,
without panic: `SplitAfter` gives at least one part, so that the last part and
the parts before it exist.  So it does for the empty path with a negative
`maxLen`, a path without separator and a path that ends in a separator. -/
theorem ShortenPath_total (sep : UInt8) (path : GoString) (maxLen : Int) :
    (∃ r, ShortenPath sep path maxLen = some r) ∧
      1 ≤ (SplitAfter sep path).length ∧
      (∃ last, (SplitAfter sep path).getLast? = some last) ∧
      ShortenPath 47 [] (-1) = some [] ∧
      ShortenPath 47 (str "abc") 0 = some (str "abc") ∧
      ShortenPath 47 (str "a/") 0 = some (str ".../") := by
  refine ⟨?_, ?_, ⟨_, SplitAfter_getLast sep path⟩, by decide, by decide, by decide⟩
  · by_cases h : (path.length : Int) ≤ maxLen
    · exact ⟨path, if_pos h⟩
    · obtain ⟨init, _, hr⟩ := ShortenPath_long sep path maxLen h
      exact ⟨_, hr⟩
  · obtain ⟨init, last, h1, _⟩ := SplitAfter_shape sep path
    rw [h1]
    simp

/-- C23: for a separator other than the dot, as `/` and `\` are, shortening
the result of `ShortenPath` again to the same `maxLen` gives the same result. -/
theorem ShortenPath_idempotent (sep : UInt8) (path : GoString) (maxLen : Int)
    (hsep : sep ≠ 46) :
    ∃ r, ShortenPath sep path maxLen = some r ∧ ShortenPath sep r maxLen = some r := by
  by_cases hfit : (path.length : Int) ≤ maxLen
  · exact ⟨path, if_pos hfit, if_pos hfit⟩
  · obtain ⟨init, hinit, hr⟩ := ShortenPath_long sep path maxLen hfit
    obtain ⟨hlast, hpath, hparts⟩ := SplitAfter_parts sep path init _ hinit
    rcases List.eq_nil_or_concat init with hnil | ⟨init0, p0, hcons⟩
    · subst hnil
      have hp : lastComponent sep path = path := by
        conv_rhs => rw [hpath]
        simp
      rw [hp] at hr
      simp only [shortenLoop, List.nil_append] at hr
      exact ⟨path, hr, hr⟩
    · have hne : init ≠ [] := by
        rw [hcons]
        simp
      have hplen : path.length = init.flatten.length + (lastComponent sep path).length := by
        conv_lhs => rw [hpath]
        rw [List.length_append]
      obtain ⟨k, _, hres, hkfit, _⟩ := shortenLoop_exact sep maxLen init
        ((lastComponent sep path).length : Int) [] hne (by omega)
      rw [hres, List.nil_append] at hr
      refine ⟨_, hr, ?_⟩
      have hmarker : ∀ p ∈ init.take k ++ [ellipsis ++ [sep]], ∃ q, p = q ++ [sep] ∧ sep ∉ q := by
        intro p hp
        rcases List.mem_append.mp hp with h1 | h1
        · exact hparts p (List.mem_of_mem_take h1)
        · refine ⟨ellipsis, List.mem_singleton.mp h1, ?_⟩
          intro hmem
          simp only [ellipsis, List.mem_cons, List.mem_singleton, List.not_mem_nil, or_false,
            or_self] at hmem
          exact hsep hmem
      have hflat : (init.take k).flatten ++ (ellipsis ++ [sep]) ++ lastComponent sep path
          = (init.take k ++ [ellipsis ++ [sep]]).flatten ++ lastComponent sep path := by
        simp
      have hsplit := SplitAfter_of_parts sep _ _ hmarker hlast
      rw [← hflat] at hsplit
      by_cases hfit2 : (((init.take k).flatten ++ (ellipsis ++ [sep])
          ++ lastComponent sep path).length : Int) ≤ maxLen
      · exact if_pos hfit2
      · obtain ⟨init2, hinit2, hr2⟩ := ShortenPath_long sep _ maxLen hfit2
        rw [hsplit] at hinit2
        obtain ⟨hi, hl⟩ := List.append_inj' hinit2 rfl
        have hl2 : lastComponent sep path = lastComponent sep
            ((init.take k).flatten ++ (ellipsis ++ [sep]) ++ lastComponent sep path) := by
          simpa using hl
        rw [hr2, ← hl2, ← hi]
        have htake : init.take k ≠ [] →
            ((lastComponent sep path).length : Int) + ((init.take k).flatten.length : Int)
              ≤ maxLen := by
          intro hk
          apply hkfit
          rcases Nat.eq_zero_or_pos k with rfl | hpos
          · simp at hk
          · exact hpos
        rw [shortenLoop_append sep maxLen _ _ _ _ htake, shortenLoop_marker, List.nil_append]

/-- C23 on `C:\Users\dundee\file.txt` with `maxLen = 15`, whose result
`C:\...\file.txt` is kept when shortened again. -/
theorem ShortenPath_idempotent_witness :
    ShortenPath 92 (str "C:\\Users\\dundee\\file.txt") 15 = some (str "C:\\...\\file.txt") ∧
    ShortenPath 92 (str "C:\\...\\file.txt") 15 = some (str "C:\\...\\file.txt") ∧
    ∃ r, ShortenPath 92 (str "C:\\Users\\dundee\\file.txt") 15 = some r ∧
      ShortenPath 92 r 15 = some r :=
  ⟨by decide, by decide,
    ShortenPath_idempotent 92 (str "C:\\Users\\dundee\\file.txt") 15 (by decide)⟩

/-- C24: when the last component of the path is at most `maxLen` long, the
result is at most `maxLen + 4` long, four being the length of the marker and
one separator. -/
theorem ShortenPath_length_bound (sep : UInt8) (path : GoString) (maxLen : Int)
    (h : ((lastComponent sep path).length : Int) ≤ maxLen) :
    ∃ r, ShortenPath sep path maxLen = some r ∧ (r.length : Int) ≤ maxLen + 4 := by
  by_cases hfit : (path.length : Int) ≤ maxLen
  · exact ⟨path, if_pos hfit, by omega⟩
  · obtain ⟨init, _, hr⟩ := ShortenPath_long sep path maxLen hfit
    refine ⟨_, hr, ?_⟩
    have hlen := shortenLoop_length sep maxLen (lastComponent sep path).length init
      ((lastComponent sep path).length : Int) [] (by simp) (Or.inl rfl)
    rw [max_eq_left h] at hlen
    rw [List.length_append]
    push_cast
    exact hlen

/-- C24 on `/home/dundee/foo` with `maxLen = 10`: the result `/home/.../foo`
has 13 bytes. -/
theorem ShortenPath_length_bound_witness :
    ShortenPath 47 (str "/home/dundee/foo") 10 = some (str "/home/.../foo") ∧
    ∃ r, ShortenPath 47 (str "/home/dundee/foo") 10 = some r ∧ (r.length : Int) ≤ 10 + 4 :=
  ⟨by decide, ShortenPath_length_bound 47 (str "/home/dundee/foo") 10 (by decide)⟩

end Gdu
